import Mathlib

/-!
Verification of the BK-tree library (`src/lib.rs`).

The tree structure, insertion, bounded-radius search and both iterators are
embedded as Lean functions below.  The string-distance function used by the
library (`distance::levenshtein_distance`) is, per the design, a pluggable
metric: every definition takes an arbitrary `d : T → T → Nat` as a parameter,
and theorems that need metric laws (reflexivity at zero, symmetry, triangle
inequality) take them as hypotheses.
-/

set_option maxHeartbeats 1000000

namespace BkVerify

/-- A node of the BK-tree, mirroring `struct Node<T> { word: T,
children: Vec<(usize, Node<T>)> }`: the stored word and the ordered list of
(edge distance, child subtree) pairs. -/
inductive Node (T : Type) where
  | mk (word : T) (children : List (Nat × Node T)) : Node T

/-- Field accessor for `Node.word`. -/
def Node.word {T : Type} : Node T → T
  | .mk w _ => w

/-- Field accessor for `Node.children`. -/
def Node.children {T : Type} : Node T → List (Nat × Node T)
  | .mk _ cs => cs

/-- The BK-tree itself, mirroring `struct BkTree<T> { root: Option<Box<Node<T>>> }`
(the `Box` indirection has no observable meaning and is dropped). -/
structure BkTree (T : Type) where
  root : Option (Node T)

/-- `BkTree::new`: the empty tree. -/
def BkTree.new {T : Type} : BkTree T := ⟨none⟩

/-- `abs_difference`, at the `usize` instantiation `find` uses:
`if x < y { y - x } else { x - y }` on natural numbers. -/
def abs_difference (x y : Nat) : Nat := if x < y then y - x else x - y

mutual
/-- Number of nodes of a subtree (used as a termination measure and as the
node count in the counting claims). -/
def Node.size {T : Type} : Node T → Nat
  | .mk _ cs => 1 + childrenSize cs
/-- Total node count of a children list. -/
def childrenSize {T : Type} : List (Nat × Node T) → Nat
  | [] => 0
  | (_, c) :: rest => c.size + childrenSize rest
end

mutual
/-- All words stored in a subtree, root first, then the subtrees of the
children in stored order. -/
def Node.elems {T : Type} : Node T → List T
  | .mk w cs => w :: childrenElems cs
/-- All words stored in the subtrees of a children list. -/
def childrenElems {T : Type} : List (Nat × Node T) → List T
  | [] => []
  | (_, c) :: rest => c.elems ++ childrenElems rest
end

mutual
/-- The loop of `BkTree::insert` starting at node `u`: compute
`k = d(u.word, val)`; stop if `k == 0`; otherwise look up the child at edge
distance `k`, descending into it when present and attaching a fresh leaf
when absent. -/
def insertNode {T : Type} (d : T → T → Nat) (val : T) : Node T → Node T
  | .mk w cs =>
    if d w val = 0 then .mk w cs
    else .mk w (insertChildren d val (d w val) cs)

/-- `u.children.iter().position(|(dist, _)| *dist == k)` followed by either
descending into the first child at distance `k` or pushing `(k, leaf)` at the
end of the children vector. -/
def insertChildren {T : Type} (d : T → T → Nat) (val : T) (k : Nat) :
    List (Nat × Node T) → List (Nat × Node T)
  | [] => [(k, .mk val [])]
  | (dist, c) :: rest =>
    if dist = k then (dist, insertNode d val c) :: rest
    else (dist, c) :: insertChildren d val k rest
end

/-- `BkTree::insert`: an empty tree gets `val` as its root, otherwise the
insertion walk runs from the root. -/
def BkTree.insert {T : Type} (d : T → T → Nat) (t : BkTree T) (val : T) : BkTree T :=
  match t.root with
  | none => ⟨some (.mk val [])⟩
  | some root => ⟨some (insertNode d val root)⟩

/-- `BkTree::insert_all`: the `for i in iter { self.insert(i) }` loop. -/
def BkTree.insert_all {T : Type} (d : T → T → Nat) : BkTree T → List T → BkTree T
  | t, [] => t
  | t, i :: rest => (t.insert d i).insert_all d rest

/-- `FromIterator::from_iter`: `BkTree::new()` followed by `insert_all`. -/
def BkTree.from_iter {T : Type} (d : T → T → Nat) (l : List T) : BkTree T :=
  BkTree.new.insert_all d l

/-- All words stored in a tree. -/
def BkTree.elems {T : Type} (t : BkTree T) : List T :=
  match t.root with
  | none => []
  | some root => root.elems

/-- Node count of a tree. -/
def BkTree.size {T : Type} (t : BkTree T) : Nat :=
  match t.root with
  | none => 0
  | some root => root.size

/-- Total node count of a work queue of subtrees. -/
def queueSize {T : Type} : List (Node T) → Nat
  | [] => 0
  | n :: rest => n.size + queueSize rest

theorem queueSize_append {T : Type} (a b : List (Node T)) :
    queueSize (a ++ b) = queueSize a + queueSize b := by
  induction a with
  | nil => simp [queueSize]
  | cons n rest ih => simp [queueSize, ih]; omega

theorem queueSize_map_snd {T : Type} (cs : List (Nat × Node T)) :
    queueSize (cs.map (fun c => c.2)) = childrenSize cs := by
  induction cs with
  | nil => rfl
  | cons c rest ih => cases c; simp [queueSize, childrenSize, ih]

theorem size_eq_children {T : Type} (n : Node T) :
    n.size = 1 + childrenSize n.children := by
  cases n; simp [Node.size, Node.children]

theorem childrenSize_filter_le {T : Type} (p : Nat × Node T → Bool)
    (cs : List (Nat × Node T)) :
    childrenSize (cs.filter p) ≤ childrenSize cs := by
  induction cs with
  | nil => simp [childrenSize]
  | cons c rest ih =>
    cases c with
    | mk k n =>
      by_cases hp : p (k, n)
      · simp [List.filter, hp, childrenSize]; omega
      · simp [List.filter, hp, childrenSize]; omega

/-- The `while let Some(n) = candidates.pop_front()` loop of `BkTree::find`:
pop the front node, record `(n.word, distance)` when `distance <= max_dist`,
and push every child whose edge distance is within `max_dist` of `distance`
at the back of the queue. -/
def findLoop {T : Type} (d : T → T → Nat) (val : T) (max_dist : Nat) :
    List (Node T) → List (T × Nat)
  | [] => []
  | n :: rest =>
    if d n.word val ≤ max_dist then
      (n.word, d n.word val) ::
        findLoop d val max_dist
          (rest ++ (n.children.filter
            (fun c => abs_difference c.1 (d n.word val) ≤ max_dist)).map (fun c => c.2))
    else
      findLoop d val max_dist
        (rest ++ (n.children.filter
          (fun c => abs_difference c.1 (d n.word val) ≤ max_dist)).map (fun c => c.2))
termination_by q => queueSize q
decreasing_by
  all_goals
    simp only [queueSize_append, queueSize, queueSize_map_snd]
    have h1 := childrenSize_filter_le
      (fun c => decide (abs_difference c.1 (d n.word val) ≤ max_dist)) n.children
    have h2 := size_eq_children n
    omega

/-- `BkTree::find`: empty result on the empty tree, otherwise the queue loop
seeded with the root. -/
def BkTree.find {T : Type} (d : T → T → Nat) (t : BkTree T) (val : T)
    (max_dist : Nat) : List (T × Nat) :=
  match t.root with
  | none => []
  | some root => findLoop d val max_dist [root]

/-- `struct IntoIter<T> { queue: Vec<Node<T>> }`. -/
structure IntoIter (T : Type) where
  queue : List (Node T)

/-- `struct Iter<'a, T> { queue: Vec<&'a Node<T>> }` (the reference layer has
no observable meaning in the embedding). -/
structure Iter (T : Type) where
  queue : List (Node T)

/-- `BkTree::into_iter`: seed the stack with the root when present. -/
def BkTree.into_iter {T : Type} (t : BkTree T) : IntoIter T :=
  match t.root with
  | none => ⟨[]⟩
  | some root => ⟨[root]⟩

/-- `BkTree::iter`: seed the stack with a reference to the root when present. -/
def BkTree.iter {T : Type} (t : BkTree T) : Iter T :=
  match t.root with
  | none => ⟨[]⟩
  | some root => ⟨[root]⟩

theorem queueSize_pop {T : Type} (queue : List (Node T)) (node : Node T)
    (h : queue.getLast? = some node) :
    queueSize (queue.dropLast ++ (node.children.map (fun c => c.2)))
      < queueSize queue := by
  have hq : queue = queue.dropLast ++ [node] :=
    (List.dropLast_append_getLast? node h).symm
  calc queueSize (queue.dropLast ++ (node.children.map (fun c => c.2)))
      = queueSize queue.dropLast + childrenSize node.children := by
        rw [queueSize_append, queueSize_map_snd]
    _ < queueSize queue.dropLast + node.size := by
        have := size_eq_children node; omega
    _ = queueSize (queue.dropLast ++ [node]) := by
        rw [queueSize_append]; simp [queueSize]
    _ = queueSize queue := by rw [← hq]

/-- The full run of `IntoIter::next`: `self.queue.pop()` takes the last
element of the vector, its children are pushed (in stored order) at the end,
and its word is yielded. -/
def intoIterElems {T : Type} (queue : List (Node T)) : List T :=
  match h : queue.getLast? with
  | none => []
  | some node =>
    node.word :: intoIterElems (queue.dropLast ++ (node.children.map (fun c => c.2)))
termination_by queueSize queue
decreasing_by exact queueSize_pop queue node h

/-- The full run of `Iter::next`: same stack discipline as `IntoIter::next`,
yielding references instead of owned values. -/
def iterElems {T : Type} (queue : List (Node T)) : List T :=
  match h : queue.getLast? with
  | none => []
  | some node =>
    node.word :: iterElems (queue.dropLast ++ (node.children.map (fun c => c.2)))
termination_by queueSize queue
decreasing_by exact queueSize_pop queue node h

/-- The sequence yielded by exhausting `IntoIter`. -/
def IntoIter.toList {T : Type} (it : IntoIter T) : List T :=
  intoIterElems it.queue

/-- The sequence yielded by exhausting `Iter`. -/
def Iter.toList {T : Type} (it : Iter T) : List T :=
  iterElems it.queue

mutual
/-- The words of the nodes visited by the insertion walk of `val` starting at
a node: the walk stops at the first node at distance 0 from `val`, descends
into the child whose edge distance equals the computed distance when one
exists, and otherwise ends at the node where a leaf would be attached. -/
def walkPath {T : Type} (d : T → T → Nat) (val : T) : Node T → List T
  | .mk w cs =>
    if d w val = 0 then [w]
    else w :: walkPathChildren d val (d w val) cs
/-- Continuation of `walkPath` over a children list looking for edge
distance `k`. -/
def walkPathChildren {T : Type} (d : T → T → Nat) (val : T) (k : Nat) :
    List (Nat × Node T) → List T
  | [] => []
  | (dist, c) :: rest =>
    if dist = k then walkPath d val c else walkPathChildren d val k rest
end

mutual
/-- Whether the insertion walk of `val` reaches a node at distance 0 (the
`if k == 0 { return; }` branch of `BkTree::insert`), making the insert a
no-op. -/
def hitsDup {T : Type} (d : T → T → Nat) (val : T) : Node T → Bool
  | .mk w cs =>
    if d w val = 0 then true
    else hitsDupChildren d val (d w val) cs
/-- Continuation of `hitsDup` over a children list looking for edge
distance `k`. -/
def hitsDupChildren {T : Type} (d : T → T → Nat) (val : T) (k : Nat) :
    List (Nat × Node T) → Bool
  | [] => false
  | (dist, c) :: rest =>
    if dist = k then hitsDup d val c else hitsDupChildren d val k rest
end

/-- Whether `BkTree::insert` leaves the tree unchanged (duplicate found on
the walk). -/
def insertIsNoop {T : Type} (d : T → T → Nat) (t : BkTree T) (val : T) : Bool :=
  match t.root with
  | none => false
  | some root => hitsDup d val root

/-- The elements whose insert call was not a duplicate no-op, in call order,
along a run of `insert` calls starting from `t`. -/
def successfulInserts {T : Type} (d : T → T → Nat) : BkTree T → List T → List T
  | _, [] => []
  | t, x :: rest =>
    if insertIsNoop d t x then successfulInserts d (t.insert d x) rest
    else x :: successfulInserts d (t.insert d x) rest

/-- Whether no insert call in the run is a duplicate no-op. -/
def noNoopInserts {T : Type} (d : T → T → Nat) : BkTree T → List T → Bool
  | _, [] => true
  | t, x :: rest => !insertIsNoop d t x && noNoopInserts d (t.insert d x) rest

mutual
/-- Fuel-counted version of the `BkTree::insert` loop, spending one unit of
fuel per iteration (per node visited on the walk); `none` when fuel runs
out. -/
def insertNodeFuel {T : Type} (d : T → T → Nat) (val : T) :
    Nat → Node T → Option (Node T)
  | 0, _ => none
  | fuel + 1, .mk w cs =>
    if d w val = 0 then some (.mk w cs)
    else (insertChildrenFuel d val (d w val) fuel cs).map (fun cs2 => .mk w cs2)
/-- Fuel-counted version of `insertChildren`. -/
def insertChildrenFuel {T : Type} (d : T → T → Nat) (val : T) (k : Nat) :
    Nat → List (Nat × Node T) → Option (List (Nat × Node T))
  | _, [] => some [(k, .mk val [])]
  | fuel, (dist, c) :: rest =>
    if dist = k then (insertNodeFuel d val fuel c).map (fun c2 => (dist, c2) :: rest)
    else (insertChildrenFuel d val k fuel rest).map (fun rest2 => (dist, c) :: rest2)
end

/-- Fuel-counted version of the `BkTree::find` loop, spending one unit of
fuel per queue pop; `none` when fuel runs out. -/
def findLoopFuel {T : Type} (d : T → T → Nat) (val : T) (max_dist : Nat) :
    Nat → List (Node T) → Option (List (T × Nat))
  | _, [] => some []
  | 0, _ :: _ => none
  | fuel + 1, n :: rest =>
    (findLoopFuel d val max_dist fuel
        (rest ++ (n.children.filter
          (fun c => abs_difference c.1 (d n.word val) ≤ max_dist)).map (fun c => c.2))).map
      (fun found =>
        if d n.word val ≤ max_dist then (n.word, d n.word val) :: found else found)

/-- Fuel-counted `BkTree::insert`. -/
def BkTree.insertFuel {T : Type} (d : T → T → Nat) (fuel : Nat) (t : BkTree T)
    (val : T) : Option (BkTree T) :=
  match t.root with
  | none => some ⟨some (.mk val [])⟩
  | some root => (insertNodeFuel d val fuel root).map (fun r => ⟨some r⟩)

/-- Fuel-counted `BkTree::find`. -/
def BkTree.findFuel {T : Type} (d : T → T → Nat) (fuel : Nat) (t : BkTree T)
    (val : T) (max_dist : Nat) : Option (List (T × Nat)) :=
  match t.root with
  | none => some []
  | some root => findLoopFuel d val max_dist fuel [root]

mutual
/-- The defining BK-tree labelling invariant: every word stored in the
subtree of a child at edge distance `k` is at distance exactly `k` from this
node's word, recursively at every node. -/
def Node.distInv {T : Type} (d : T → T → Nat) : Node T → Prop
  | .mk w cs => childrenDistInv d w cs
/-- `Node.distInv` over a children list with parent word `w`. -/
def childrenDistInv {T : Type} (d : T → T → Nat) (w : T) :
    List (Nat × Node T) → Prop
  | [] => True
  | (k, c) :: rest =>
    (∀ v ∈ c.elems, d w v = k) ∧ c.distInv d ∧ childrenDistInv d w rest
end

mutual
/-- No two children of any node share an edge distance. -/
def Node.uniqueEdges {T : Type} : Node T → Prop
  | .mk _ cs => (cs.map (fun c => c.1)).Nodup ∧ childrenUniqueEdges cs
/-- `Node.uniqueEdges` at every node of a children list. -/
def childrenUniqueEdges {T : Type} : List (Nat × Node T) → Prop
  | [] => True
  | (_, c) :: rest => c.uniqueEdges ∧ childrenUniqueEdges rest
end

/-! ### Basic structural lemmas -/

theorem mem_childrenElems {T : Type} (cs : List (Nat × Node T)) (v : T) :
    v ∈ childrenElems cs ↔ ∃ p ∈ cs, v ∈ p.2.elems := by
  induction cs with
  | nil => simp [childrenElems]
  | cons p rest ih =>
    cases p with
    | mk k c => simp [childrenElems, ih]

theorem mem_elems {T : Type} (w : T) (cs : List (Nat × Node T)) (v : T) :
    v ∈ (Node.mk w cs).elems ↔ v = w ∨ ∃ p ∈ cs, v ∈ p.2.elems := by
  simp [Node.elems, mem_childrenElems]

mutual
theorem length_elems {T : Type} : ∀ n : Node T, n.elems.length = n.size
  | .mk w cs => by
    simp [Node.elems, Node.size, length_childrenElems cs]; omega
theorem length_childrenElems {T : Type} :
    ∀ cs : List (Nat × Node T), (childrenElems cs).length = childrenSize cs
  | [] => by simp [childrenElems, childrenSize]
  | (k, c) :: rest => by
    simp [childrenElems, childrenSize, length_elems c, length_childrenElems rest]
end

theorem childrenDistInv_iff {T : Type} (d : T → T → Nat) (w : T)
    (cs : List (Nat × Node T)) :
    childrenDistInv d w cs ↔
      ∀ p ∈ cs, (∀ v ∈ p.2.elems, d w v = p.1) ∧ p.2.distInv d := by
  induction cs with
  | nil => simp [childrenDistInv]
  | cons p rest ih =>
    cases p with
    | mk k c =>
      simp [childrenDistInv, ih]
      tauto

theorem distInv_iff {T : Type} (d : T → T → Nat) (w : T)
    (cs : List (Nat × Node T)) :
    (Node.mk w cs).distInv d ↔
      ∀ p ∈ cs, (∀ v ∈ p.2.elems, d w v = p.1) ∧ p.2.distInv d := by
  rw [show (Node.mk w cs).distInv d = childrenDistInv d w cs from by
    simp [Node.distInv]]
  exact childrenDistInv_iff d w cs

theorem childrenUniqueEdges_iff {T : Type} (cs : List (Nat × Node T)) :
    childrenUniqueEdges cs ↔ ∀ p ∈ cs, p.2.uniqueEdges := by
  induction cs with
  | nil => simp [childrenUniqueEdges]
  | cons p rest ih =>
    cases p with
    | mk k c => simp [childrenUniqueEdges, ih]

theorem uniqueEdges_iff {T : Type} (w : T) (cs : List (Nat × Node T)) :
    (Node.mk w cs).uniqueEdges ↔
      (cs.map (fun c => c.1)).Nodup ∧ ∀ p ∈ cs, p.2.uniqueEdges := by
  rw [show (Node.mk w cs).uniqueEdges =
      ((cs.map (fun c => c.1)).Nodup ∧ childrenUniqueEdges cs) from by
    simp [Node.uniqueEdges]]
  rw [childrenUniqueEdges_iff]

/-! ### Insertion lemmas -/

theorem insertNode_of_hitsDup {T : Type} (d : T → T → Nat) (val : T) :
    ∀ n : Node T, hitsDup d val n = true → insertNode d val n = n := by
  have H := insertNode.induct d val
    (motive_1 := fun n => hitsDup d val n = true → insertNode d val n = n)
    (motive_2 := fun k cs =>
      hitsDupChildren d val k cs = true → insertChildren d val k cs = cs)
  apply H
  · intro w cs h0 _
    simp [insertNode, h0]
  · intro w cs h0 ih hd
    rw [hitsDup] at hd
    simp only [h0, if_false] at hd
    simp [insertNode, h0, ih hd]
  · intro k h
    simp [hitsDupChildren] at h
  · intro dist c rest ih hd
    rw [hitsDupChildren] at hd
    simp only [if_pos rfl] at hd
    simp [insertChildren, ih hd]
  · intro k dist c rest hne ih hd
    rw [hitsDupChildren] at hd
    simp only [hne, if_false] at hd
    simp [insertChildren, hne, ih hd]

theorem elems_insertNode_perm {T : Type} (d : T → T → Nat) (val : T) :
    ∀ n : Node T, hitsDup d val n = false →
      (insertNode d val n).elems.Perm (val :: n.elems) := by
  have H := insertNode.induct d val
    (motive_1 := fun n => hitsDup d val n = false →
      (insertNode d val n).elems.Perm (val :: n.elems))
    (motive_2 := fun k cs => hitsDupChildren d val k cs = false →
      (childrenElems (insertChildren d val k cs)).Perm (val :: childrenElems cs))
  apply H
  · intro w cs h0 hd
    rw [hitsDup] at hd
    simp [h0] at hd
  · intro w cs h0 ih hd
    rw [hitsDup] at hd
    simp only [h0, if_false] at hd
    rw [insertNode]
    simp only [h0, if_false]
    simp only [Node.elems]
    exact ((ih hd).cons w).trans (List.Perm.swap val w _)
  · intro k _
    simp [insertChildren, childrenElems, Node.elems]
  · intro dist c rest ih hd
    rw [hitsDupChildren] at hd
    simp only [if_pos rfl] at hd
    rw [insertChildren]
    simp only [if_pos rfl]
    simp only [childrenElems]
    exact ((ih hd).append_right (childrenElems rest)).trans
      (List.Perm.refl (val :: c.elems ++ childrenElems rest))
  · intro k dist c rest hne ih hd
    rw [hitsDupChildren] at hd
    simp only [hne, if_false] at hd
    rw [insertChildren]
    simp only [hne, if_false]
    simp only [childrenElems]
    exact ((ih hd).append_left c.elems).trans List.perm_middle

theorem mem_elems_insertNode {T : Type} (d : T → T → Nat) (val : T)
    (n : Node T) (v : T) (hv : v ∈ (insertNode d val n).elems) :
    v = val ∨ v ∈ n.elems := by
  cases hd : hitsDup d val n with
  | true => rw [insertNode_of_hitsDup d val n hd] at hv; exact Or.inr hv
  | false =>
    have := (elems_insertNode_perm d val n hd).mem_iff.mp hv
    simpa using this

theorem distInv_insertNode {T : Type} (d : T → T → Nat) (val : T) :
    ∀ n : Node T, n.distInv d → (insertNode d val n).distInv d := by
  have H := insertNode.induct d val
    (motive_1 := fun n => n.distInv d → (insertNode d val n).distInv d)
    (motive_2 := fun k cs => ∀ w : T, d w val = k → childrenDistInv d w cs →
      childrenDistInv d w (insertChildren d val k cs))
  apply H
  · intro w cs h0 h
    simpa [insertNode, h0] using h
  · intro w cs h0 ih h
    rw [insertNode]
    simp only [h0, if_false]
    rw [distInv_iff] at h ⊢
    rw [← childrenDistInv_iff] at h ⊢
    exact ih w rfl h
  · intro k w hk _
    rw [insertChildren]
    rw [childrenDistInv_iff]
    intro p hp
    simp only [List.mem_singleton] at hp
    subst hp
    constructor
    · intro v hv
      simp [Node.elems, childrenElems] at hv
      subst hv
      exact hk
    · rw [distInv_iff]
      intro p hp
      simp at hp
  · intro dist c rest ih w hk h
    rw [insertChildren]
    simp only [if_pos rfl]
    rw [childrenDistInv_iff] at h ⊢
    intro p hp
    rcases List.mem_cons.mp hp with hp | hp
    · subst hp
      have hc := h (dist, c) (List.mem_cons_self _ _)
      refine ⟨?_, ih (hc.2)⟩
      intro v hv
      rcases mem_elems_insertNode d val c v hv with hv | hv
      · subst hv; exact hk
      · exact hc.1 v hv
    · exact h p (List.mem_cons_of_mem _ hp)
  · intro k dist c rest hne ih w hk h
    rw [insertChildren]
    simp only [hne, if_false]
    rw [childrenDistInv_iff] at h ⊢
    intro p hp
    rcases List.mem_cons.mp hp with hp | hp
    · subst hp
      exact h (dist, c) (List.mem_cons_self _ _)
    · have := ih w hk (by
        rw [childrenDistInv_iff]
        intro q hq
        exact h q (List.mem_cons_of_mem _ hq))
      rw [childrenDistInv_iff] at this
      exact this p hp

theorem labels_insertChildren {T : Type} (d : T → T → Nat) (val : T) (k : Nat)
    (cs : List (Nat × Node T)) :
    (insertChildren d val k cs).map (fun c => c.1) =
      if k ∈ cs.map (fun c => c.1) then cs.map (fun c => c.1)
      else cs.map (fun c => c.1) ++ [k] := by
  induction cs with
  | nil => simp [insertChildren]
  | cons p rest ih =>
    cases p with
    | mk dist c =>
      by_cases hd : dist = k
      · subst hd
        rw [insertChildren]
        simp
      · rw [insertChildren]
        simp only [hd, if_false]
        rcases Decidable.em (k ∈ rest.map (fun c => c.1)) with hmem | hmem
        · simp [ih, hmem, Ne.symm hd]
        · simp [ih, hmem, Ne.symm hd]

theorem uniqueEdges_insertNode {T : Type} (d : T → T → Nat) (val : T) :
    ∀ n : Node T, n.uniqueEdges → (insertNode d val n).uniqueEdges := by
  have H := insertNode.induct d val
    (motive_1 := fun n => n.uniqueEdges → (insertNode d val n).uniqueEdges)
    (motive_2 := fun k cs => childrenUniqueEdges cs →
      childrenUniqueEdges (insertChildren d val k cs))
  apply H
  · intro w cs h0 h
    simpa [insertNode, h0] using h
  · intro w cs h0 ih h
    rw [insertNode]
    simp only [h0, if_false]
    rw [uniqueEdges_iff] at h ⊢
    rw [← childrenUniqueEdges_iff] at h ⊢
    refine ⟨?_, ih h.2⟩
    rw [labels_insertChildren]
    rcases Decidable.em ((d w val) ∈ cs.map (fun c => c.1)) with hmem | hmem
    · simpa [hmem] using h.1
    · simp only [hmem, if_false]
      rw [List.nodup_append]
      exact ⟨h.1, List.nodup_singleton _, by simpa using hmem⟩
  · intro k _
    rw [insertChildren]
    rw [childrenUniqueEdges_iff]
    intro p hp
    simp only [List.mem_singleton] at hp
    subst hp
    rw [uniqueEdges_iff]
    simp
  · intro dist c rest ih h
    rw [insertChildren]
    simp only [if_pos rfl]
    rw [childrenUniqueEdges_iff] at h ⊢
    intro p hp
    rcases List.mem_cons.mp hp with hp | hp
    · subst hp
      exact ih (h (dist, c) (List.mem_cons_self _ _))
    · exact h p (List.mem_cons_of_mem _ hp)
  · intro k dist c rest hne ih h
    rw [insertChildren]
    simp only [hne, if_false]
    rw [childrenUniqueEdges_iff] at h ⊢
    intro p hp
    rcases List.mem_cons.mp hp with hp | hp
    · subst hp
      exact h (dist, c) (List.mem_cons_self _ _)
    · have := ih (by
        rw [childrenUniqueEdges_iff]
        intro q hq
        exact h q (List.mem_cons_of_mem _ hq))
      rw [childrenUniqueEdges_iff] at this
      exact this p hp

/-! ### The walk always meets a stored duplicate -/

theorem childrenSize_ge_of_mem {T : Type} (cs : List (Nat × Node T))
    (p : Nat × Node T) (hp : p ∈ cs) : p.2.size ≤ childrenSize cs := by
  induction cs with
  | nil => simp at hp
  | cons q rest ih =>
    cases q with
    | mk k c =>
      rcases List.mem_cons.mp hp with h | h
      · subst h; simp [childrenSize]
      · simp [childrenSize]
        have := ih h
        omega

theorem size_lt_of_mem_children {T : Type} (w : T) (cs : List (Nat × Node T))
    (p : Nat × Node T) (hp : p ∈ cs) : p.2.size < (Node.mk w cs).size := by
  have h1 := childrenSize_ge_of_mem cs p hp
  have h2 : (Node.mk w cs).size = 1 + childrenSize cs := by simp [Node.size]
  omega

theorem Node.size_induction {T : Type} {motive : Node T → Prop}
    (ih : ∀ n : Node T, (∀ m : Node T, m.size < n.size → motive m) → motive n) :
    ∀ n, motive n := by
  have H : ∀ s : Nat, ∀ n : Node T, n.size = s → motive n := by
    intro s
    induction s using Nat.strong_induction_on with
    | _ s IH =>
      intro n hs
      exact ih n (fun m hm => IH m.size (by omega) m rfl)
  intro n
  exact H n.size n rfl

theorem hitsDupChildren_eq_of_mem {T : Type} (d : T → T → Nat) (val : T)
    (cs : List (Nat × Node T)) (k : Nat) (c : Node T) (hmem : (k, c) ∈ cs)
    (hnodup : (cs.map (fun q => q.1)).Nodup) :
    hitsDupChildren d val k cs = hitsDup d val c := by
  induction cs with
  | nil => simp at hmem
  | cons q rest ih =>
    cases q with
    | mk dist c0 =>
      rcases List.mem_cons.mp hmem with h | h
      · rw [Prod.mk.injEq] at h
        rw [hitsDupChildren, if_pos h.1.symm, h.2]
      · by_cases hd : dist = k
        · exfalso
          subst hd
          simp only [List.map_cons, List.nodup_cons] at hnodup
          exact hnodup.1 (List.mem_map.mpr ⟨(dist, c), h, rfl⟩)
        · rw [hitsDupChildren, if_neg hd]
          apply ih h
          simp only [List.map_cons, List.nodup_cons] at hnodup
          exact hnodup.2

theorem hitsDup_of_mem {T : Type} (d : T → T → Nat) (val : T)
    (hsymm : ∀ a b, d a b = d b a)
    (htri : ∀ a b c, d a c ≤ d a b + d b c) :
    ∀ n : Node T, n.distInv d → n.uniqueEdges →
      ∀ w ∈ n.elems, d w val = 0 → hitsDup d val n = true := by
  apply Node.size_induction
  intro n IH hinv huniq w hw h0
  cases n with
  | mk w0 cs =>
    by_cases hk : d w0 val = 0
    · rw [hitsDup]
      simp [hk]
    · rw [hitsDup]
      simp only [hk, if_false]
      rcases (mem_elems w0 cs w).mp hw with hww | ⟨p, hp, hwp⟩
      · exfalso
        subst hww
        exact hk h0
      · cases p with
        | mk k1 c =>
          rw [distInv_iff] at hinv
          have hdist := (hinv (k1, c) hp).1 w hwp
          have hkeq : d w0 val = k1 := by
            have t1 : d w0 val ≤ d w0 w + d w val := htri w0 w val
            have t2 : d w0 w ≤ d w0 val + d val w := htri w0 val w
            have hsw : d val w = d w val := hsymm val w
            omega
          rw [uniqueEdges_iff] at huniq
          rw [hkeq, hitsDupChildren_eq_of_mem d val cs k1 c hp huniq.1]
          exact IH c (size_lt_of_mem_children w0 cs (k1, c) hp)
            (hinv (k1, c) hp).2 (huniq.2 (k1, c) hp) w hwp h0

/-! ### Tree-level invariants and element bookkeeping -/

/-- Structural well-formedness of every tree reachable by insertions: the
root (when present) satisfies the labelling invariant and the unique-edge
invariant. -/
def BkTree.WF {T : Type} (d : T → T → Nat) (t : BkTree T) : Prop :=
  ∀ r, t.root = some r → r.distInv d ∧ r.uniqueEdges

theorem WF_new {T : Type} (d : T → T → Nat) : BkTree.WF d (BkTree.new (T := T)) := by
  intro r hr
  simp [BkTree.new] at hr

theorem WF_insert {T : Type} (d : T → T → Nat) (t : BkTree T) (v : T)
    (h : t.WF d) : (t.insert d v).WF d := by
  intro r hr
  cases ht : t.root with
  | none =>
    simp [BkTree.insert, ht] at hr
    subst hr
    constructor
    · rw [distInv_iff]; intro p hp; simp at hp
    · rw [uniqueEdges_iff]; simp
  | some root =>
    simp [BkTree.insert, ht] at hr
    subst hr
    have hroot := h root ht
    exact ⟨distInv_insertNode d v root hroot.1, uniqueEdges_insertNode d v root hroot.2⟩

theorem WF_insert_all {T : Type} (d : T → T → Nat) (xs : List T) :
    ∀ t : BkTree T, t.WF d → (t.insert_all d xs).WF d := by
  induction xs with
  | nil => intro t ht; simpa [BkTree.insert_all] using ht
  | cons x rest ih =>
    intro t ht
    rw [BkTree.insert_all]
    exact ih (t.insert d x) (WF_insert d t x ht)

theorem WF_from_iter {T : Type} (d : T → T → Nat) (xs : List T) :
    (BkTree.from_iter d xs).WF d :=
  WF_insert_all d xs BkTree.new (WF_new d)

theorem insert_of_noop {T : Type} (d : T → T → Nat) (t : BkTree T) (v : T)
    (h : insertIsNoop d t v = true) : t.insert d v = t := by
  cases ht : t.root with
  | none => simp [insertIsNoop, ht] at h
  | some root =>
    rw [insertIsNoop, ht] at h
    cases t with
    | mk r =>
      simp only at ht
      subst ht
      simp [BkTree.insert, insertNode_of_hitsDup d v root h]

theorem elems_insert_perm {T : Type} (d : T → T → Nat) (t : BkTree T) (v : T)
    (h : insertIsNoop d t v = false) :
    (t.insert d v).elems.Perm (v :: t.elems) := by
  cases ht : t.root with
  | none =>
    simp [BkTree.insert, ht, BkTree.elems, Node.elems, childrenElems]
  | some root =>
    rw [insertIsNoop, ht] at h
    simp only [BkTree.insert, ht, BkTree.elems]
    exact elems_insertNode_perm d v root h

theorem elems_insert_all_perm {T : Type} (d : T → T → Nat) (xs : List T) :
    ∀ t : BkTree T,
      (t.insert_all d xs).elems.Perm (t.elems ++ successfulInserts d t xs) := by
  induction xs with
  | nil => intro t; simp [BkTree.insert_all, successfulInserts]
  | cons x rest ih =>
    intro t
    rw [BkTree.insert_all, successfulInserts]
    cases hnoop : insertIsNoop d t x with
    | true =>
      rw [if_pos (show true = true from rfl)]
      rw [insert_of_noop d t x hnoop]
      exact ih t
    | false =>
      simp only [Bool.false_eq_true, if_false]
      have h1 := ih (t.insert d x)
      have h2 : ((t.insert d x).elems ++ successfulInserts d (t.insert d x) rest).Perm
          (t.elems ++ x :: successfulInserts d (t.insert d x) rest) := by
        have h3 := (elems_insert_perm d t x hnoop).append_right
          (successfulInserts d (t.insert d x) rest)
        refine h3.trans ?_
        exact List.perm_middle.symm
      exact h1.trans h2

theorem BkTree.elems_length {T : Type} (t : BkTree T) :
    t.elems.length = t.size := by
  cases t with
  | mk r =>
    cases r with
    | none => simp [BkTree.elems, BkTree.size]
    | some root => simp [BkTree.elems, BkTree.size, BkVerify.length_elems root]

theorem size_insert {T : Type} (d : T → T → Nat) (t : BkTree T) (v : T) :
    (t.insert d v).size = t.size + (if insertIsNoop d t v then 0 else 1) := by
  cases hnoop : insertIsNoop d t v with
  | true => rw [insert_of_noop d t v hnoop]; simp
  | false =>
    have h := (elems_insert_perm d t v hnoop).length_eq
    rw [BkTree.elems_length, List.length_cons, BkTree.elems_length] at h
    simp [h]

/-! ### Correctness of the search loop -/

/-- All words stored in the subtrees of a work queue. -/
def queueElems {T : Type} : List (Node T) → List T
  | [] => []
  | n :: rest => n.elems ++ queueElems rest

theorem queueElems_append {T : Type} (a b : List (Node T)) :
    queueElems (a ++ b) = queueElems a ++ queueElems b := by
  induction a with
  | nil => simp [queueElems]
  | cons n rest ih => simp [queueElems, ih]

theorem queue_size_induction {T : Type} {motive : List (Node T) → Prop}
    (ih : ∀ q : List (Node T),
      (∀ q2 : List (Node T), queueSize q2 < queueSize q → motive q2) → motive q) :
    ∀ q, motive q := by
  have H : ∀ s : Nat, ∀ q : List (Node T), queueSize q = s → motive q := by
    intro s
    induction s using Nat.strong_induction_on with
    | _ s IH =>
      intro q hs
      exact ih q (fun q2 hq2 => IH (queueSize q2) (by omega) q2 rfl)
  intro q
  exact H (queueSize q) q rfl

theorem queueSize_step_lt {T : Type} (n : Node T) (rest : List (Node T))
    (p : Nat × Node T → Bool) :
    queueSize (rest ++ (n.children.filter p).map (fun c => c.2))
      < queueSize (n :: rest) := by
  have h1 := childrenSize_filter_le p n.children
  have h2 := size_eq_children n
  have h3 : queueSize ((n.children.filter p).map (fun c => c.2))
      = childrenSize (n.children.filter p) := queueSize_map_snd _
  rw [queueSize_append]
  simp only [queueSize]
  omega

theorem filterMap_scan_pruned {T : Type} (d : T → T → Nat) (q : T)
    (max_dist : Nat)
    (hsymm : ∀ a b, d a b = d b a)
    (htri : ∀ a b c, d a c ≤ d a b + d b c)
    (w : T) (cs : List (Nat × Node T))
    (hinv : ∀ p ∈ cs, ∀ v ∈ p.2.elems, d w v = p.1) :
    (queueElems ((cs.filter
        (fun c => abs_difference c.1 (d w q) ≤ max_dist)).map (fun c => c.2))).filterMap
          (fun v => if d v q ≤ max_dist then some (v, d v q) else none)
      = (childrenElems cs).filterMap
          (fun v => if d v q ≤ max_dist then some (v, d v q) else none) := by
  induction cs with
  | nil => simp [queueElems, childrenElems]
  | cons p rest ih =>
    cases p with
    | mk arc c =>
      have hrest := ih (fun p hp => hinv p (List.mem_cons_of_mem _ hp))
      have hc := hinv (arc, c) (List.mem_cons_self _ _)
      by_cases hkeep : abs_difference arc (d w q) ≤ max_dist
      · rw [List.filter_cons_of_pos (by simpa using hkeep)]
        simp only [List.map_cons, queueElems, childrenElems]
        rw [List.filterMap_append, List.filterMap_append, hrest]
      · rw [List.filter_cons_of_neg (by simpa using hkeep)]
        simp only [childrenElems]
        rw [List.filterMap_append, hrest]
        have hnil : c.elems.filterMap
            (fun v => if d v q ≤ max_dist then some (v, d v q) else none) = [] := by
          rw [List.filterMap_eq_nil_iff]
          intro v hv
          have hwv : d w v = arc := hc v hv
          have t1 : d w q ≤ d w v + d v q := htri w v q
          have t2 : d w v ≤ d w q + d q v := htri w q v
          have hq : d q v = d v q := hsymm q v
          have habs : ¬ (abs_difference arc (d w q) ≤ max_dist) := hkeep
          rw [abs_difference] at habs
          have : ¬ (d v q ≤ max_dist) := by
            by_cases hlt : arc < d w q
            · rw [if_pos hlt] at habs; omega
            · rw [if_neg hlt] at habs; omega
          simp [this]
        rw [hnil]
        simp

theorem findLoop_perm {T : Type} (d : T → T → Nat) (q : T) (max_dist : Nat)
    (hsymm : ∀ a b, d a b = d b a)
    (htri : ∀ a b c, d a c ≤ d a b + d b c) :
    ∀ queue : List (Node T), (∀ n ∈ queue, n.distInv d) →
      (findLoop d q max_dist queue).Perm
        ((queueElems queue).filterMap
          (fun v => if d v q ≤ max_dist then some (v, d v q) else none)) := by
  apply queue_size_induction
  intro queue IH hinv
  cases queue with
  | nil => simp [findLoop, queueElems]
  | cons n rest =>
    cases n with
    | mk w cs =>
      have hstep := queueSize_step_lt (Node.mk w cs) rest
        (fun c => decide (abs_difference c.1 (d (Node.mk w cs).word q) ≤ max_dist))
      have hinv_node := hinv (Node.mk w cs) (List.mem_cons_self _ _)
      rw [distInv_iff] at hinv_node
      have hinv_next : ∀ m ∈ rest ++ (((Node.mk w cs).children.filter
          (fun c => abs_difference c.1 (d (Node.mk w cs).word q) ≤ max_dist)).map
            (fun c => c.2)), m.distInv d := by
        intro m hm
        rcases List.mem_append.mp hm with hm | hm
        · exact hinv m (List.mem_cons_of_mem _ hm)
        · rcases List.mem_map.mp hm with ⟨p, hp, hpm⟩
          have hp2 := List.mem_of_mem_filter hp
          simp only [Node.children] at hp2
          subst hpm
          exact (hinv_node p hp2).2
      have hIH := IH _ hstep hinv_next
      have hsplitQ : queueElems (rest ++ (((Node.mk w cs).children.filter
          (fun c => abs_difference c.1 (d (Node.mk w cs).word q) ≤ max_dist)).map
            (fun c => c.2)))
          = queueElems rest ++ queueElems (((Node.mk w cs).children.filter
            (fun c => abs_difference c.1 (d (Node.mk w cs).word q) ≤ max_dist)).map
              (fun c => c.2)) := queueElems_append _ _
      have hprune := filterMap_scan_pruned d q max_dist hsymm htri w cs
        (fun p hp => (hinv_node p hp).1)
      have hperm2 : (findLoop d q max_dist (rest ++ (((Node.mk w cs).children.filter
          (fun c => abs_difference c.1 (d (Node.mk w cs).word q) ≤ max_dist)).map
            (fun c => c.2)))).Perm
          (((childrenElems cs).filterMap
              (fun v => if d v q ≤ max_dist then some (v, d v q) else none))
            ++ ((queueElems rest).filterMap
              (fun v => if d v q ≤ max_dist then some (v, d v q) else none))) := by
        refine hIH.trans ?_
        rw [hsplitQ, List.filterMap_append]
        simp only [Node.word, Node.children] at hprune ⊢
        rw [hprune]
        exact List.perm_append_comm
      rw [findLoop]
      simp only [Node.word, Node.children, queueElems, Node.elems] at hperm2 ⊢
      by_cases hw : d w q ≤ max_dist
      · rw [if_pos hw, List.cons_append, List.filterMap_cons, List.filterMap_append]
        simp only [if_pos hw]
        exact hperm2.cons (w, d w q)
      · rw [if_neg hw, List.cons_append, List.filterMap_cons, List.filterMap_append]
        simp only [if_neg hw]
        exact hperm2

/-! ### Iterator traversal lemmas -/

theorem queueElems_map_snd {T : Type} (cs : List (Nat × Node T)) :
    queueElems (cs.map (fun c => c.2)) = childrenElems cs := by
  induction cs with
  | nil => rfl
  | cons c rest ih => cases c; simp [queueElems, childrenElems, ih]

theorem elems_cons_children {T : Type} (n : Node T) :
    n.elems = n.word :: childrenElems n.children := by
  cases n; simp [Node.elems, Node.word, Node.children]

theorem intoIterElems_nil {T : Type} : intoIterElems ([] : List (Node T)) = [] := by
  rw [intoIterElems.eq_def]
  simp

theorem intoIterElems_pop {T : Type} (queue : List (Node T)) (node : Node T)
    (h : queue.getLast? = some node) :
    intoIterElems queue
      = node.word
        :: intoIterElems (queue.dropLast ++ (node.children.map (fun c => c.2))) := by
  rw [intoIterElems.eq_def]
  split
  · rename_i heq
    rw [heq] at h
    exact absurd h (by simp)
  · rename_i node2 heq
    rw [heq] at h
    injection h with h
    subst h
    rfl

theorem iterElems_nil {T : Type} : iterElems ([] : List (Node T)) = [] := by
  rw [iterElems.eq_def]
  simp

theorem iterElems_pop {T : Type} (queue : List (Node T)) (node : Node T)
    (h : queue.getLast? = some node) :
    iterElems queue
      = node.word
        :: iterElems (queue.dropLast ++ (node.children.map (fun c => c.2))) := by
  rw [iterElems.eq_def]
  split
  · rename_i heq
    rw [heq] at h
    exact absurd h (by simp)
  · rename_i node2 heq
    rw [heq] at h
    injection h with h
    subst h
    rfl

theorem intoIterElems_perm {T : Type} :
    ∀ queue : List (Node T), (intoIterElems queue).Perm (queueElems queue) := by
  apply queue_size_induction
  intro queue IH
  cases hq : queue.getLast? with
  | none =>
    rw [List.getLast?_eq_none_iff.mp hq]
    simp [intoIterElems_nil, queueElems]
  | some node =>
    rw [intoIterElems_pop queue node hq]
    have hlt := queueSize_pop queue node hq
    have hperm := IH _ hlt
    have hq2 : queue = queue.dropLast ++ [node] :=
      (List.dropLast_append_getLast? node hq).symm
    refine ((hperm.cons node.word).trans ?_)
    rw [queueElems_append, queueElems_map_snd]
    conv_rhs => rw [hq2]
    rw [queueElems_append]
    simp only [queueElems, List.append_nil]
    rw [elems_cons_children node]
    exact List.perm_middle.symm

theorem iterElems_eq_intoIterElems {T : Type} :
    ∀ queue : List (Node T), iterElems queue = intoIterElems queue := by
  apply queue_size_induction
  intro queue IH
  cases hq : queue.getLast? with
  | none =>
    rw [List.getLast?_eq_none_iff.mp hq]
    rw [iterElems_nil, intoIterElems_nil]
  | some node =>
    rw [iterElems_pop queue node hq, intoIterElems_pop queue node hq]
    rw [IH _ (queueSize_pop queue node hq)]

theorem into_iter_toList_perm {T : Type} (t : BkTree T) :
    t.into_iter.toList.Perm t.elems := by
  cases ht : t.root with
  | none =>
    simp [BkTree.into_iter, ht, IntoIter.toList, intoIterElems_nil, BkTree.elems]
  | some root =>
    simp only [BkTree.into_iter, ht, IntoIter.toList, BkTree.elems]
    refine (intoIterElems_perm [root]).trans ?_
    simp [queueElems]

theorem into_iter_toList_length {T : Type} (t : BkTree T) :
    t.into_iter.toList.length = t.size := by
  rw [(into_iter_toList_perm t).length_eq, BkTree.elems_length]

/-! ### Walk path and duplicates, fuel bounds, counting -/

theorem hitsDup_iff_walkPath {T : Type} (d : T → T → Nat) (val : T) :
    ∀ n : Node T, hitsDup d val n = true ↔ ∃ u ∈ walkPath d val n, d u val = 0 := by
  have H := hitsDup.induct d val
    (motive_1 := fun n =>
      hitsDup d val n = true ↔ ∃ u ∈ walkPath d val n, d u val = 0)
    (motive_2 := fun k cs =>
      hitsDupChildren d val k cs = true ↔
        ∃ u ∈ walkPathChildren d val k cs, d u val = 0)
  apply H
  · intro w cs h0
    rw [hitsDup, walkPath]
    simp [h0]
  · intro w cs h0 ih
    rw [hitsDup, walkPath]
    simp only [h0, if_false]
    rw [ih]
    constructor
    · rintro ⟨u, hu, hu0⟩
      exact ⟨u, List.mem_cons_of_mem _ hu, hu0⟩
    · rintro ⟨u, hu, hu0⟩
      rcases List.mem_cons.mp hu with hu | hu
      · subst hu; exact absurd hu0 h0
      · exact ⟨u, hu, hu0⟩
  · intro k
    rw [hitsDupChildren, walkPathChildren]
    simp
  · intro dist c rest ih
    rw [hitsDupChildren, walkPathChildren]
    simp only [if_pos rfl]
    exact ih
  · intro k dist c rest hne ih
    rw [hitsDupChildren, walkPathChildren]
    simp only [hne, if_false]
    exact ih

theorem insertNodeFuel_spec {T : Type} (d : T → T → Nat) (val : T) :
    ∀ n : Node T, ∀ fuel, n.size ≤ fuel →
      insertNodeFuel d val fuel n = some (insertNode d val n) := by
  have H := insertNode.induct d val
    (motive_1 := fun n => ∀ fuel, n.size ≤ fuel →
      insertNodeFuel d val fuel n = some (insertNode d val n))
    (motive_2 := fun k cs => ∀ fuel, childrenSize cs ≤ fuel →
      insertChildrenFuel d val k fuel cs = some (insertChildren d val k cs))
  apply H
  · intro w cs h0 fuel hfuel
    have hs : (Node.mk w cs).size = 1 + childrenSize cs := by simp [Node.size]
    cases fuel with
    | zero => omega
    | succ f =>
      rw [insertNodeFuel, insertNode]
      simp [h0]
  · intro w cs h0 ih fuel hfuel
    have hs : (Node.mk w cs).size = 1 + childrenSize cs := by simp [Node.size]
    cases fuel with
    | zero => omega
    | succ f =>
      rw [insertNodeFuel, insertNode]
      simp only [h0, if_false]
      rw [ih f (by omega)]
      rfl
  · intro k fuel _
    rw [insertChildrenFuel, insertChildren]
  · intro dist c rest ih fuel hfuel
    have hs : childrenSize ((dist, c) :: rest) = c.size + childrenSize rest := by
      simp [childrenSize]
    rw [insertChildrenFuel, insertChildren]
    simp only [if_pos rfl]
    rw [ih fuel (by omega)]
    rfl
  · intro k dist c rest hne ih fuel hfuel
    have hs : childrenSize ((dist, c) :: rest) = c.size + childrenSize rest := by
      simp [childrenSize]
    rw [insertChildrenFuel, insertChildren]
    simp only [hne, if_false]
    rw [ih fuel (by omega)]
    rfl

theorem Node.size_pos {T : Type} (n : Node T) : 1 ≤ n.size := by
  have := size_eq_children n
  omega

theorem findLoopFuel_spec {T : Type} (d : T → T → Nat) (val : T) (max_dist : Nat) :
    ∀ fuel, ∀ queue : List (Node T), queueSize queue ≤ fuel →
      findLoopFuel d val max_dist fuel queue
        = some (findLoop d val max_dist queue) := by
  intro fuel
  induction fuel with
  | zero =>
    intro queue hq
    cases queue with
    | nil => rw [findLoopFuel, findLoop]
    | cons n rest =>
      exfalso
      have h1 := Node.size_pos n
      simp only [queueSize] at hq
      omega
  | succ f ih =>
    intro queue hq
    cases queue with
    | nil => rw [findLoopFuel, findLoop]
    | cons n rest =>
      rw [findLoopFuel]
      have hlt := queueSize_step_lt n rest
        (fun c => decide (abs_difference c.1 (d n.word val) ≤ max_dist))
      rw [ih _ (by simp only [queueSize] at hq hlt ⊢; omega)]
      rw [findLoop]
      by_cases hw : d n.word val ≤ max_dist
      · simp [hw]
      · simp [hw]

/-! ### Counting -/

theorem size_insert_all {T : Type} (d : T → T → Nat) (xs : List T) :
    ∀ t : BkTree T,
      (t.insert_all d xs).size ≤ t.size + xs.length
        ∧ ((t.insert_all d xs).size = t.size + xs.length
            ↔ noNoopInserts d t xs = true) := by
  induction xs with
  | nil =>
    intro t
    rw [BkTree.insert_all, noNoopInserts]
    simp
  | cons x rest ih =>
    intro t
    rw [BkTree.insert_all, noNoopInserts]
    have hstep := size_insert d t x
    have hrest := ih (t.insert d x)
    cases hnoop : insertIsNoop d t x with
    | true =>
      rw [hnoop] at hstep
      simp at hstep
      constructor
      · simp only [List.length_cons]
        omega
      · constructor
        · intro h
          exfalso
          simp only [List.length_cons] at h
          omega
        · intro h
          simp at h
    | false =>
      rw [hnoop] at hstep
      simp at hstep
      constructor
      · simp only [List.length_cons]
        omega
      · simp only [List.length_cons, Bool.not_false, Bool.true_and]
        rw [← hrest.2]
        omega

/-! ### Remaining helper lemmas -/

theorem iter_toList_eq {T : Type} (t : BkTree T) :
    t.iter.toList = t.into_iter.toList := by
  cases ht : t.root with
  | none =>
    simp [BkTree.iter, BkTree.into_iter, ht, Iter.toList, IntoIter.toList,
      iterElems_eq_intoIterElems]
  | some root =>
    simp [BkTree.iter, BkTree.into_iter, ht, Iter.toList, IntoIter.toList,
      iterElems_eq_intoIterElems]

theorem insert_all_eq_foldl {T : Type} (d : T → T → Nat) (xs : List T) :
    ∀ t : BkTree T, t.insert_all d xs = xs.foldl (fun acc x => acc.insert d x) t := by
  induction xs with
  | nil => intro t; rw [BkTree.insert_all]; rfl
  | cons x rest ih =>
    intro t
    rw [BkTree.insert_all, List.foldl_cons]
    exact ih (t.insert d x)

theorem elems_new {T : Type} : (BkTree.new : BkTree T).elems = [] := rfl

theorem from_iter_elems_perm {T : Type} (d : T → T → Nat) (xs : List T) :
    (BkTree.from_iter d xs).elems.Perm (successfulInserts d BkTree.new xs) := by
  have h := elems_insert_all_perm d xs BkTree.new
  rw [elems_new] at h
  exact h

theorem pairwise_nonzero_insert {T : Type} (d : T → T → Nat)
    (hsymm : ∀ a b, d a b = d b a)
    (htri : ∀ a b c, d a c ≤ d a b + d b c)
    (t : BkTree T) (hwf : t.WF d)
    (hpw : t.elems.Pairwise (fun a b => d a b ≠ 0)) (v : T) :
    (t.insert d v).elems.Pairwise (fun a b => d a b ≠ 0) := by
  have hsR : Symmetric (fun a b : T => d a b ≠ 0) := by
    intro a b h
    rw [hsymm]
    exact h
  cases ht : t.root with
  | none =>
    simp [BkTree.insert, ht, BkTree.elems, Node.elems, childrenElems]
  | some r =>
    cases hd : hitsDup d v r with
    | true =>
      have hnoop : insertIsNoop d t v = true := by rw [insertIsNoop, ht]; exact hd
      rw [insert_of_noop d t v hnoop]
      exact hpw
    | false =>
      have hnoop : insertIsNoop d t v = false := by rw [insertIsNoop, ht]; exact hd
      have hperm := elems_insert_perm d t v hnoop
      refine (List.Perm.pairwise_iff (fun hab => hsR hab) hperm.symm).mp ?_
      rw [List.pairwise_cons]
      constructor
      · intro w hw h0
        have hw0 : d w v = 0 := by rw [hsymm] at h0; exact h0
        have hwf2 := hwf r ht
        have := hitsDup_of_mem d v hsymm htri r hwf2.1 hwf2.2 w
          (by rw [BkTree.elems, ht] at hw; exact hw) hw0
        rw [this] at hd
        exact absurd hd (by simp)
      · exact hpw

theorem pairwise_nonzero_insert_all {T : Type} (d : T → T → Nat)
    (hsymm : ∀ a b, d a b = d b a)
    (htri : ∀ a b c, d a c ≤ d a b + d b c) (xs : List T) :
    ∀ t : BkTree T, t.WF d → t.elems.Pairwise (fun a b => d a b ≠ 0) →
      (t.insert_all d xs).elems.Pairwise (fun a b => d a b ≠ 0) := by
  induction xs with
  | nil => intro t _ hpw; rw [BkTree.insert_all]; exact hpw
  | cons x rest ih =>
    intro t hwf hpw
    rw [BkTree.insert_all]
    exact ih (t.insert d x) (WF_insert d t x hwf)
      (pairwise_nonzero_insert d hsymm htri t hwf hpw x)

/-- Tree-level unique-edge invariant: the root, when present, has pairwise
distinct edge distances among the children of every node. -/
def BkTree.uniqueEdges {T : Type} (t : BkTree T) : Prop :=
  ∀ r, t.root = some r → r.uniqueEdges

/-- The discrete metric on booleans, used to instantiate metric hypotheses
in the concrete witness examples. -/
def dBool (a b : Bool) : Nat := if a = b then 0 else 1

/-! ### Claim theorems -/

/-- Claim C1: for every tree built from `new` by a sequence of `insert` calls
(equivalently `from_iter`), every query `q` and bound `max_dist`, under the
metric laws (`d a a = 0`, symmetry, triangle inequality), `find` returns
exactly the stored elements at distance at most `max_dist` from `q`, each
paired with its exact distance — the same multiset a brute-force linear scan
over the stored elements produces, with no claim about order. -/
theorem find_matches_linear_scan {T : Type} (d : T → T → Nat)
    (hrefl : ∀ a, d a a = 0)
    (hsymm : ∀ a b, d a b = d b a)
    (htri : ∀ a b c, d a c ≤ d a b + d b c)
    (xs : List T) (q : T) (max_dist : Nat) :
    ((BkTree.from_iter d xs).find d q max_dist).Perm
      ((BkTree.from_iter d xs).elems.filterMap
        (fun v => if d v q ≤ max_dist then some (v, d v q) else none)) := by
  cases ht : (BkTree.from_iter d xs).root with
  | none => simp [BkTree.find, ht, BkTree.elems]
  | some root =>
    have hwf := WF_from_iter d xs root ht
    simp only [BkTree.find, ht, BkTree.elems]
    have hperm := findLoop_perm d q max_dist hsymm htri [root] (by
      intro n hn
      simp only [List.mem_singleton] at hn
      subst hn
      exact hwf.1)
    refine hperm.trans ?_
    simp [queueElems]

/-- Witness for C1 at the discrete metric on booleans. -/
theorem find_matches_linear_scan_witness :
    ((BkTree.from_iter dBool [true, false]).find dBool true 1).Perm
      ((BkTree.from_iter dBool [true, false]).elems.filterMap
        (fun v => if dBool v true ≤ 1 then some (v, dBool v true) else none)) :=
  find_matches_linear_scan dBool (by decide) (by decide) (by decide)
    [true, false] true 1

/-- Claim C2: every tree reachable from `new` by insertions has pairwise
distinct edge distances among the children of every node, and one more
insert preserves this. -/
theorem reachable_trees_unique_edge_distances {T : Type} (d : T → T → Nat)
    (xs : List T) (v : T) :
    (BkTree.from_iter d xs).uniqueEdges
      ∧ ((BkTree.from_iter d xs).insert d v).uniqueEdges := by
  constructor
  · intro r hr
    exact (WF_from_iter d xs r hr).2
  · intro r hr
    exact (WF_insert d (BkTree.from_iter d xs) v (WF_from_iter d xs) r hr).2

/-- Claim C3: if the value being inserted is at distance 0 from some element
on the unique insertion walk path, the insert is a no-op: the tree, its
traversal elements and its node count are unchanged. -/
theorem insert_duplicate_is_noop {T : Type} (d : T → T → Nat) (t : BkTree T)
    (v : T) (r : Node T) (hroot : t.root = some r)
    (hdup : ∃ u ∈ walkPath d v r, d u v = 0) :
    t.insert d v = t ∧ (t.insert d v).elems = t.elems
      ∧ (t.insert d v).size = t.size := by
  have hd : hitsDup d v r = true := (hitsDup_iff_walkPath d v r).mpr hdup
  have hnoop : insertIsNoop d t v = true := by
    rw [insertIsNoop, hroot]
    exact hd
  have he := insert_of_noop d t v hnoop
  exact ⟨he, by rw [he], by rw [he]⟩

/-- Witness for C3: re-inserting the sole stored boolean is a no-op. -/
theorem insert_duplicate_is_noop_witness :
    (BkTree.from_iter dBool [true]).root = some (Node.mk true [])
      ∧ (∃ u ∈ walkPath dBool true (Node.mk true []), dBool u true = 0)
      ∧ (BkTree.from_iter dBool [true]).insert dBool true
          = BkTree.from_iter dBool [true] :=
  ⟨rfl, by decide,
    (insert_duplicate_is_noop dBool (BkTree.from_iter dBool [true]) true
      (Node.mk true []) rfl (by decide)).1⟩

/-- Claim C4: full traversal of a tree built by insertions, via the owned
iterator or the borrowed iterator, yields exactly the elements whose insert
call was not a duplicate no-op, and its length is the stored node count. -/
theorem traversal_complete {T : Type} (d : T → T → Nat) (xs : List T) :
    ((BkTree.from_iter d xs).into_iter.toList).Perm
        (successfulInserts d BkTree.new xs)
      ∧ ((BkTree.from_iter d xs).iter.toList).Perm
        (successfulInserts d BkTree.new xs)
      ∧ ((BkTree.from_iter d xs).into_iter.toList).length
          = (BkTree.from_iter d xs).size
      ∧ ((BkTree.from_iter d xs).iter.toList).length
          = (BkTree.from_iter d xs).size := by
  have h1 := (into_iter_toList_perm (BkTree.from_iter d xs)).trans
    (from_iter_elems_perm d xs)
  have hl := into_iter_toList_length (BkTree.from_iter d xs)
  refine ⟨h1, ?_, hl, ?_⟩
  · rw [iter_toList_eq]
    exact h1
  · rw [iter_toList_eq]
    exact hl

/-- Claim C5: `insert_all` is exactly repeated `insert` in sequence order,
and `from_iter` is exactly `new` followed by `insert_all`. -/
theorem insert_all_is_repeated_insert {T : Type} (d : T → T → Nat)
    (t : BkTree T) (xs : List T) :
    t.insert_all d xs = xs.foldl (fun acc x => acc.insert d x) t
      ∧ BkTree.from_iter d xs = BkTree.new.insert_all d xs :=
  ⟨insert_all_eq_foldl d xs t, rfl⟩

/-- Claim C6: the number of elements yielded by full traversal of a tree
built by `n` insert calls is at most `n`, with equality exactly when no
insert call was a distance-0 duplicate no-op. -/
theorem traversal_count_law {T : Type} (d : T → T → Nat) (xs : List T) :
    ((BkTree.from_iter d xs).into_iter.toList).length ≤ xs.length
      ∧ (((BkTree.from_iter d xs).into_iter.toList).length = xs.length
          ↔ noNoopInserts d BkTree.new xs = true) := by
  have h := size_insert_all d xs BkTree.new
  have hz : (BkTree.new : BkTree T).size = 0 := rfl
  constructor
  · rw [into_iter_toList_length]
    show (BkTree.new.insert_all d xs).size ≤ xs.length
    omega
  · rw [into_iter_toList_length]
    show (BkTree.new.insert_all d xs).size = xs.length
      ↔ noNoopInserts d BkTree.new xs = true
    rw [← h.2]
    omega

/-- Claim C7: in any tree reachable by insertions under a metric
(`d a a = 0`, symmetric, triangle inequality), the stored values are
pairwise at nonzero distance: no two distance-0 duplicates are ever stored
simultaneously. -/
theorem stored_values_pairwise_nonzero {T : Type} (d : T → T → Nat)
    (hrefl : ∀ a, d a a = 0)
    (hsymm : ∀ a b, d a b = d b a)
    (htri : ∀ a b c, d a c ≤ d a b + d b c)
    (xs : List T) :
    ((BkTree.from_iter d xs).elems).Pairwise (fun a b => d a b ≠ 0) := by
  have h := pairwise_nonzero_insert_all d hsymm htri xs BkTree.new (WF_new d)
    (by rw [elems_new]; exact List.Pairwise.nil)
  exact h

/-- Witness for C7 at the discrete metric on booleans. -/
theorem stored_values_pairwise_nonzero_witness :
    ((BkTree.from_iter dBool [true, false, true]).elems).Pairwise
      (fun a b => dBool a b ≠ 0) :=
  stored_values_pairwise_nonzero dBool (by decide) (by decide) (by decide)
    [true, false, true]

/-- Claim C8: `find` on an empty tree (absent root) returns the empty
sequence, for every query and every bound. -/
theorem find_empty_tree {T : Type} (d : T → T → Nat) (t : BkTree T) (q : T)
    (max_dist : Nat) (h : t.root = none) : t.find d q max_dist = [] := by
  simp [BkTree.find, h]

/-- Witness for C8 on the freshly created empty tree. -/
theorem find_empty_tree_witness :
    (BkTree.new : BkTree Bool).root = none
      ∧ (BkTree.new : BkTree Bool).find dBool true 0 = [] :=
  ⟨rfl, find_empty_tree dBool BkTree.new true 0 rfl⟩

/-- Claim C9: `insert` and `find` terminate on every finite tree: the
fuel-counted versions, given fuel one more than the node count (one unit per
loop iteration), finish and compute exactly the untimed results. -/
theorem insert_find_terminate {T : Type} (d : T → T → Nat) (t : BkTree T)
    (v q : T) (max_dist : Nat) :
    t.insertFuel d (t.size + 1) v = some (t.insert d v)
      ∧ t.findFuel d (t.size + 1) q max_dist = some (t.find d q max_dist) := by
  constructor
  · cases ht : t.root with
    | none => simp [BkTree.insertFuel, BkTree.insert, ht]
    | some r =>
      have hs : t.size = r.size := by simp [BkTree.size, ht]
      simp only [BkTree.insertFuel, BkTree.insert, ht]
      rw [insertNodeFuel_spec d v r (t.size + 1) (by omega)]
      rfl
  · cases ht : t.root with
    | none => simp [BkTree.findFuel, BkTree.find, ht]
    | some r =>
      have hs : t.size = r.size := by simp [BkTree.size, ht]
      simp only [BkTree.findFuel, BkTree.find, ht]
      rw [findLoopFuel_spec d q max_dist (t.size + 1) [r]
        (by simp only [queueSize]; omega)]

/-- Claim C10: the borrowed iterator and the owned iterator yield the same
sequence of elements in the same order, on every tree. -/
theorem iter_and_into_iter_same_sequence {T : Type} (t : BkTree T) :
    t.iter.toList = t.into_iter.toList :=
  iter_toList_eq t

end BkVerify
